import Mathlib

/-!
Shallow embedding of the BLMM results-assembly and inference wrapper:
the voxel partitioner, ring/inner split and unique-product-matrix resolver of
src/blmm_results.py, and the contrast classification, frame assignment,
residual mean square and covariance-output logic of lib/blmm_inference.py.
Machine integers are modelled as Nat; the real arithmetic of the Python
division in the partitioner is modelled over the rationals.
-/

namespace BLMM

/-! ## Voxel partitioner (src/blmm_results.py, lines 167-188) -/

/-- Number of voxels computable at a time, nvb = MAXMEM/(10*8*(q**2))
(line 175); Python real division, modelled over the rationals. -/
def nvb (MAXMEM q : ℕ) : ℚ :=
  (MAXMEM : ℚ) / (10 * 8 * (q : ℚ) ^ 2)

/-- Number of voxel groups, nvg = int(len(bamInds)//nvb+1) (line 178): the
floor of len/nvb, plus one. -/
def nvg (MAXMEM q len : ℕ) : ℕ :=
  ⌊(len : ℚ) / nvb MAXMEM q⌋₊ + 1

/-- Sizes of the sublists np.array_split produces when splitting a length-len
sequence into n parts: the first len % n parts have len / n + 1 elements and
the remaining n - len % n parts have len / n elements. -/
def splitSizes (len n : ℕ) : List ℕ :=
  List.replicate (len % n) (len / n + 1) ++ List.replicate (n - len % n) (len / n)

/-- Cut successive chunks of the given sizes from the front of a list. -/
def takeDrop {α : Type} : List α → List ℕ → List (List α)
  | _, [] => []
  | xs, s :: rest => xs.take s :: takeDrop (xs.drop s) rest

/-- Embedding of np.array_split: split a list into n contiguous near-equal
parts. -/
def arraySplit {α : Type} (xs : List α) (n : ℕ) : List (List α) :=
  takeDrop xs (splitSizes xs.length n)

/-- Embedding of voxelGroups = np.array_split(bamInds, nvg) (line 181). -/
def voxelGroups (MAXMEM q : ℕ) (bamInds : List ℕ) : List (List ℕ) :=
  arraySplit bamInds (nvg MAXMEM q bamInds.length)

/-! ## Ring / inner split (src/blmm_results.py, lines 191-209) -/

/-- Mask_cv: a copy of the mask in which every voxel outside the current group
of indices is zeroed (lines 191-192). -/
def maskCv (Mask : ℕ → ℕ) (group : List ℕ) (i : ℕ) : ℕ :=
  if i ∈ group then Mask i else 0

/-- Ring voxel indices R_inds = np.sort(np.where((Mask_cv==1)*(n_sv<n))[0])
(line 196): the sorted full-volume indices whose group-restricted mask value is
one and whose spatially varying observation count is strictly below n. -/
def ringInds (v : ℕ) (Mask nsv : ℕ → ℕ) (group : List ℕ) (n : ℕ) : List ℕ :=
  (List.range v).filter (fun i => decide (maskCv Mask group i = 1 ∧ nsv i < n))

/-- Inner voxel indices I_inds = np.sort(np.where((Mask_cv==1)*(n_sv==n))[0])
(line 205): group-restricted mask value one and a full observation count. -/
def innerInds (v : ℕ) (Mask nsv : ℕ → ℕ) (group : List ℕ) (n : ℕ) : List ℕ :=
  (List.range v).filter (fun i => decide (maskCv Mask group i = 1 ∧ nsv i = n))

/-! ## Double-argsort rank matching (src/blmm_results.py, lines 196-209) -/

/-- Comparison key used by a stable argsort of xs: position i comes before
position j when its value is smaller, or the values tie and i < j. -/
def keyLt (xs : List ℕ) (i j : ℕ) : Bool :=
  decide (xs.getD i 0 < xs.getD j 0 ∨ (xs.getD i 0 = xs.getD j 0 ∧ i < j))

/-- Insert an element into a list assumed sorted for the strict comparison lt,
keeping it sorted. -/
def insertBy (lt : ℕ → ℕ → Bool) (a : ℕ) : List ℕ → List ℕ
  | [] => [a]
  | b :: l => if lt a b then a :: b :: l else b :: insertBy lt a l

/-- Insertion sort with respect to a strict boolean comparison. -/
def sortBy (lt : ℕ → ℕ → Bool) : List ℕ → List ℕ
  | [] => []
  | a :: l => insertBy lt a (sortBy lt l)

/-- Embedding of np.argsort(xs) (stable): the positions 0..len-1 sorted by
value, ties broken by position. -/
def argsort (xs : List ℕ) : List ℕ :=
  sortBy (keyLt xs) (List.range xs.length)

/-- Embedding of np.sort on a one dimensional integer array. -/
def npSort (xs : List ℕ) : List ℕ :=
  sortBy (fun a b => decide (a < b)) xs

/-- Embedding of np.where(np.in1d(A, R))[0]: the positions of A, in ascending
order, whose values occur in R. -/
def whereIn1d (A R : List ℕ) : List ℕ :=
  (List.range A.length).filter (fun j => decide (A.getD j 0 ∈ R))

/-- Embedding of numpy fancy indexing xs[ix]: the elements of xs at the listed
positions. -/
def fancyIndex (xs ix : List ℕ) : List ℕ :=
  ix.map (fun k => xs.getD k 0)

/-- Embedding of R_inds_am = np.sort(np.where(np.in1d(amInds,R_inds))[0])[ix_r]
with ix_r = np.argsort(np.argsort(R_inds)) (lines 199-200, and likewise for the
inner subset at lines 208-209). -/
def rankMatch (amInds rInds : List ℕ) : List ℕ :=
  fancyIndex (npSort (whereIn1d amInds rInds)) (argsort (argsort rInds))

/-! ## Unique product matrix resolution (src/blmm_results.py, readUniqueAtB,
lines 335-383). The uniqueness mask is a list of labels, one per full-volume
voxel; the store maps m to the row AtB_unique[m] (zero-based). -/

/-- Labels of the requested voxels: uniquenessMask[vinds] (line 356). -/
def maskAt (mask : List ℕ) (vinds : List ℕ) : List ℕ :=
  vinds.map (fun j => mask.getD j 0)

/-- Embedding of maxM = np.amax(uniquenessMask) (line 351). -/
def maxM (mask : List ℕ) : ℕ :=
  mask.foldr max 0

/-- Spatially varying fill loop (lines 368-376): starting from an all-zero
array with one width-w row per label, the pass with fuel m+1 overwrites every
row whose label equals m+1 with the stored row AtB_unique[m]. -/
def fillTo (labels : List ℕ) (store : ℕ → List ℚ) (w : ℕ) : ℕ → List (List ℚ)
  | 0 => List.replicate labels.length (List.replicate w 0)
  | m + 1 =>
    List.zipWith (fun l r => if l = m + 1 then store m else r) labels
      (fillTo labels store w m)

/-- Embedding of readUniqueAtB with sv = True (lines 335-383): one row per
requested voxel, filled by looping m over 1..maxM. -/
def readUniqueAtB_sv (mask : List ℕ) (vinds : List ℕ) (store : ℕ → List ℚ)
    (w : ℕ) : List (List ℚ) :=
  fillTo (maskAt mask vinds) store w (maxM mask)

/-- Non spatially varying loop (lines 372-381): for m over 1..fuel, the result
becomes AtB_unique[m-1] whenever the single inspected label equals m. -/
def pickTo (label : ℕ) (store : ℕ → List ℚ) : ℕ → Option (List ℚ)
  | 0 => none
  | m + 1 => if label = m + 1 then some (store m) else pickTo label store m

/-- Embedding of readUniqueAtB with sv = False (lines 335-383): only the label
of the first requested voxel, uniquenessMask[vinds[0]] (line 359), is read. -/
def readUniqueAtB_nonsv (mask : List ℕ) (vinds : List ℕ)
    (store : ℕ → List ℚ) : Option (List ℚ) :=
  pickTo (mask.getD (vinds.headD 0) 0) store (maxM mask)

/-! ## Residual mean square (lib/blmm_inference.py, lines 59-70) -/

/-- Dot product of two rational vectors. -/
def dot (a b : List ℚ) : ℚ :=
  (List.zipWith (fun x y => x * y) a b).sum

/-- Matrix-vector product over lists of rows. -/
def matVec (m : List (List ℚ)) (x : List ℚ) : List ℚ :=
  m.map (fun row => dot row x)

/-- Modelled from the spec: ssr3D, the residual sum of squares derived from
the product matrices and beta (the function lives in lib/tools3d, which is not
part of the embedded sources): ete = YtY - 2*(YtX.beta) + beta.XtX.beta. -/
def ssr3D (YtX : List ℚ) (YtY : ℚ) (XtX : List (List ℚ)) (beta : List ℚ) : ℚ :=
  YtY - 2 * dot YtX beta + dot beta (matVec XtX beta)

/-- Modelled from the spec: getesms3D divides the residual sum of squares by
the supplied degrees-of-freedom argument (lib/tools3d, not under the embedded
sources). -/
def getesms3D (YtX : List ℚ) (YtY : ℚ) (XtX : List (List ℚ)) (beta : List ℚ)
    (df : ℚ) : ℚ :=
  ssr3D YtX YtY XtX beta / df

/-- Embedding of line 69 of lib/blmm_inference.py: resms is getesms3D called
with degrees-of-freedom argument n - p. -/
def resms (YtX : List ℚ) (YtY : ℚ) (XtX : List (List ℚ)) (beta : List ℚ)
    (n p : ℕ) : ℚ :=
  getesms3D YtX YtY XtX beta ((n : ℚ) - (p : ℚ))

/-- Modelled from the spec: the simplified-method sigma2 estimate is the
V-inverse weighted residual sum of squares over n; at D = 0 the weight matrix
V is the identity, so sigma2 reduces to ete / n. -/
def sigma2AtDZero (YtX : List ℚ) (YtY : ℚ) (XtX : List (List ℚ))
    (beta : List ℚ) (n : ℕ) : ℚ :=
  ssr3D YtX YtY XtX beta / (n : ℚ)

/-! ## Contrast classification and frame assignment
(lib/blmm_inference.py, lines 94-185) -/

/-- A contrast as read from the configuration: either a flat vector (a one
dimensional numpy array) or a nested list of rows (a two dimensional array). -/
inductive Contrast : Type
  | vec (entries : List ℤ)
  | mat (rows : List (List ℤ))
deriving DecidableEq

/-- Statistic type of a contrast. -/
inductive StatType : Type
  | T
  | F
deriving DecidableEq

/-- Classification at lines 105 and 122: statType is T exactly when
L.ndim == 1, and F otherwise. -/
def classify : Contrast → StatType
  | .vec _ => .T
  | .mat _ => .F

/-- First pass over the contrast list (lines 99-108): count the T contrasts
and the F contrasts, giving the totals nt and nf that size the T and F output
volumes. -/
def countTF (cs : List Contrast) : ℕ × ℕ :=
  cs.foldl
    (fun ac c =>
      if classify c = StatType.T then (ac.1 + 1, ac.2) else (ac.1, ac.2 + 1))
    (0, 0)

/-- Second pass over the contrast list (lines 110-185): each contrast is
assigned the frame index current_nt or current_nf of its own type counter, and
only that counter is then incremented. -/
def frameAssign : List Contrast → ℕ → ℕ → List (StatType × ℕ)
  | [], _, _ => []
  | c :: rest, nt, nf =>
    if classify c = StatType.T then
      (StatType.T, nt) :: frameAssign rest (nt + 1) nf
    else
      (StatType.F, nf) :: frameAssign rest nt (nf + 1)

/-! ## Covariance output flag (lib/blmm_inference.py, lines 76-89) -/

/-- Embedding of lines 76-79: OutputCovB is the configuration value when the
key is present and True otherwise. -/
def outputCovB (flag : Option Bool) : Bool :=
  match flag with
  | some b => b
  | none => true

/-- Fourth dimension of the covariance output volume, p**2 (line 84). -/
def dimCovFrames (p : ℕ) : ℕ :=
  p ^ 2

/-! ## Parameter count from the first contrast and reshape
(src/blmm_results.py, lines 112-116 and 229-236) -/

/-- Embedding of lines 112-115: p is the length of the first contrast vector
in the configuration. -/
def pFromContrasts (vectors : List (List ℚ)) : ℕ :=
  (vectors.headD []).length

/-- Embedding of numpy reshape of a flat array to shape [a, b, c]: defined
exactly when the element count matches a*b*c. -/
def reshape3 (flat : List ℚ) (a b c : ℕ) : Option (List (List (List ℚ))) :=
  if flat.length = a * b * c then
    some ((List.range a).map (fun i =>
      (List.range b).map (fun j => (flat.drop ((i * b + j) * c)).take c)))
  else none

/-! ## Helper lemmas -/

theorem takeDrop_length {α : Type} (sizes : List ℕ) :
    ∀ xs : List α, (takeDrop xs sizes).length = sizes.length := by
  induction sizes with
  | nil => intro xs; rfl
  | cons s rest ih => intro xs; simp [takeDrop, ih]

theorem takeDrop_flatten {α : Type} (sizes : List ℕ) :
    ∀ xs : List α, (takeDrop xs sizes).flatten = xs.take sizes.sum := by
  induction sizes with
  | nil => intro xs; simp [takeDrop]
  | cons s rest ih =>
    intro xs
    simp only [takeDrop, List.flatten_cons, ih, List.sum_cons, List.take_add]

theorem splitSizes_length (len n : ℕ) (hn : 0 < n) :
    (splitSizes len n).length = n := by
  have h : len % n ≤ n := le_of_lt (Nat.mod_lt _ hn)
  simp [splitSizes, Nat.add_sub_cancel' h]

theorem splitSizes_sum (len n : ℕ) (hn : 0 < n) :
    (splitSizes len n).sum = len := by
  have h : len % n ≤ n := le_of_lt (Nat.mod_lt _ hn)
  have hmul : len % n * (len / n) ≤ n * (len / n) :=
    Nat.mul_le_mul_right _ h
  simp only [splitSizes, List.sum_append, List.sum_replicate, smul_eq_mul]
  calc len % n * (len / n + 1) + (n - len % n) * (len / n)
      = len % n * (len / n) + len % n + (n * (len / n) - len % n * (len / n)) := by
        rw [Nat.mul_add, Nat.mul_one, Nat.sub_mul]
    _ = len % n + n * (len / n) := by omega
    _ = len := Nat.mod_add_div _ _

theorem nvg_eq (MAXMEM q len : ℕ) :
    nvg MAXMEM q len = len * (10 * 8 * q ^ 2) / MAXMEM + 1 := by
  have h1 : (len : ℚ) / nvb MAXMEM q
      = ((len * (10 * 8 * q ^ 2) : ℕ) : ℚ) / ((MAXMEM : ℕ) : ℚ) := by
    rw [nvb, div_div_eq_mul_div]
    push_cast
    ring
  rw [nvg, h1, Nat.floor_div_nat, Nat.floor_natCast]

theorem nvg_pos (MAXMEM q len : ℕ) : 0 < nvg MAXMEM q len := by
  rw [nvg]; exact Nat.succ_pos _

end BLMM

namespace BLMM

/-! ## Claim theorems: partitioner -/

/-- C1 counterexample: with q = 50, MAXMEM = 10*8*50^2*250 and 1000 voxel
indices, the partitioner produces 5 groups, not the 4 the claim demands,
because the group count is computed as floor(1000/250) + 1, not as a
ceiling. -/
theorem C1_counterexample :
    (voxelGroups 50000000 50 (List.range 1000)).length = 5 ∧
    decide ((voxelGroups 50000000 50 (List.range 1000)).length = 4) = false := by
  have hn : nvg 50000000 50 (List.range 1000).length = 5 := by
    rw [List.length_range, nvg_eq]
    norm_num
  have h5 : (voxelGroups 50000000 50 (List.range 1000)).length = 5 := by
    rw [voxelGroups, arraySplit, takeDrop_length, hn,
      splitSizes_length _ _ (by norm_num)]
  refine ⟨h5, ?_⟩
  rw [h5]
  rfl

/-- C1 amended: for every memory budget B, random-effects dimension q and
block index list bamInds, the partitioner splits bamInds into exactly
floor(|bamInds| * (10*8*q^2) / B) + 1 contiguous groups whose concatenation is
bamInds itself (full coverage, no overlap); in particular with q = 50,
B = 10*8*50^2*250 and 1000 voxels it produces 5 groups, not 4. -/
theorem C1_group_count (B q : ℕ) (bamInds : List ℕ) :
    (voxelGroups B q bamInds).length = bamInds.length * (10 * 8 * q ^ 2) / B + 1 ∧
    (voxelGroups B q bamInds).flatten = bamInds := by
  have hpos := nvg_pos B q bamInds.length
  constructor
  · rw [voxelGroups, arraySplit, takeDrop_length, splitSizes_length _ _ hpos,
      nvg_eq]
  · rw [voxelGroups, arraySplit, takeDrop_flatten, splitSizes_sum _ _ hpos,
      List.take_length]

/-! ## Claim theorems: contrast classification -/

/-- C2 counterexample: a single-row 1-by-2 matrix contrast is classified as an
F contrast, not as the T contrast the claim demands, because the code tests
only L.ndim == 1. -/
theorem C2_counterexample :
    classify (Contrast.mat [[1, 0]]) = StatType.F ∧
    decide (classify (Contrast.mat [[1, 0]]) = StatType.T) = false :=
  ⟨rfl, rfl⟩

/-- C2 amended: classification into T versus F is a pure function of array
dimensionality alone: a 1-dimensional vector is always classified as a T
contrast, and every 2-dimensional r-by-p matrix, including a single-row 1-by-p
matrix, is always classified as an F contrast. -/
theorem C2_classification :
    (∀ entries : List ℤ, classify (Contrast.vec entries) = StatType.T) ∧
    (∀ rows : List (List ℤ), classify (Contrast.mat rows) = StatType.F) :=
  ⟨fun _ => rfl, fun _ => rfl⟩

/-! ## Claim theorems: ring and inner split -/

/-- C3: when every per-voxel observation count is at most n, the ring subset
(mask one and strictly fewer than n observations) and the inner subset (mask
one and exactly n observations) are disjoint, their union is exactly the set
of in-mask voxels of the current group, and the ring boundary is the strict
inequality. -/
theorem C3_ring_inner_partition (v n : ℕ) (Mask nsv : ℕ → ℕ) (group : List ℕ)
    (h : ∀ i, nsv i ≤ n) :
    (∀ i, ¬ (i ∈ ringInds v Mask nsv group n ∧ i ∈ innerInds v Mask nsv group n)) ∧
    (∀ i, (i ∈ ringInds v Mask nsv group n ∨ i ∈ innerInds v Mask nsv group n) ↔
      (i < v ∧ maskCv Mask group i = 1)) ∧
    (∀ i, i ∈ ringInds v Mask nsv group n ↔
      (i < v ∧ maskCv Mask group i = 1 ∧ nsv i < n)) := by
  refine ⟨?_, ?_, ?_⟩
  · intro i hi
    simp only [ringInds, innerInds, List.mem_filter, List.mem_range,
      decide_eq_true_eq] at hi
    omega
  · intro i
    have hle := h i
    simp only [ringInds, innerInds, List.mem_filter, List.mem_range,
      decide_eq_true_eq]
    constructor
    · rintro (⟨hv, hm, _⟩ | ⟨hv, hm, _⟩) <;> exact ⟨hv, hm⟩
    · rintro ⟨hv, hm⟩
      rcases Nat.lt_or_ge (nsv i) n with hlt | hge
      · exact Or.inl ⟨hv, hm, hlt⟩
      · exact Or.inr ⟨hv, hm, le_antisymm hle hge⟩
  · intro i
    simp [ringInds, List.mem_filter, List.mem_range]

/-- C3 witness: a concrete instantiation with v = 4, n = 2, full mask, group
0..2 and one voxel of partial data. -/
theorem C3_witness :
    (∀ i, (if i = 0 then 1 else 2) ≤ 2) ∧
    ((∀ i, ¬ (i ∈ ringInds 4 (fun _ => 1) (fun i => if i = 0 then 1 else 2) [0, 1, 2] 2 ∧
        i ∈ innerInds 4 (fun _ => 1) (fun i => if i = 0 then 1 else 2) [0, 1, 2] 2)) ∧
     (∀ i, (i ∈ ringInds 4 (fun _ => 1) (fun i => if i = 0 then 1 else 2) [0, 1, 2] 2 ∨
        i ∈ innerInds 4 (fun _ => 1) (fun i => if i = 0 then 1 else 2) [0, 1, 2] 2) ↔
      (i < 4 ∧ maskCv (fun _ => 1) [0, 1, 2] i = 1)) ∧
     (∀ i, i ∈ ringInds 4 (fun _ => 1) (fun i => if i = 0 then 1 else 2) [0, 1, 2] 2 ↔
      (i < 4 ∧ maskCv (fun _ => 1) [0, 1, 2] i = 1 ∧ (if i = 0 then 1 else 2) < 2))) := by
  constructor
  · intro i; by_cases hi : i = 0 <;> simp [hi]
  · exact C3_ring_inner_partition 4 2 (fun _ => 1) (fun i => if i = 0 then 1 else 2)
      [0, 1, 2] (fun i => by by_cases hi : i = 0 <;> simp [hi])

/-! ## Claim theorems: inference engine outputs -/

theorem classify_F_of_ne_T {c : Contrast} (hc : ¬ classify c = StatType.T) :
    classify c = StatType.F := by
  rcases h : classify c with _ | _
  · exact absurd h hc
  · rfl

theorem countTF_foldl (cs : List Contrast) : ∀ a b : ℕ,
    cs.foldl
      (fun ac c =>
        if classify c = StatType.T then (ac.1 + 1, ac.2) else (ac.1, ac.2 + 1))
      (a, b) =
    (a + (cs.filter (fun c => decide (classify c = StatType.T))).length,
     b + (cs.filter (fun c => decide (classify c = StatType.F))).length) := by
  induction cs with
  | nil => intro a b; simp
  | cons c rest ih =>
    intro a b
    by_cases hc : classify c = StatType.T
    · have hcF : ¬ (classify c = StatType.F) := by rw [hc]; intro hf; cases hf
      simp [List.foldl_cons, hc, hcF, ih, List.filter_cons]
      omega
    · simp [List.foldl_cons, hc, classify_F_of_ne_T hc, ih, List.filter_cons]
      omega

theorem frameAssign_getD (cs : List Contrast) : ∀ (nt nf i : ℕ),
    i < cs.length →
    (frameAssign cs nt nf).getD i (StatType.T, 0) =
      (classify (cs.getD i (Contrast.vec [])),
       (if classify (cs.getD i (Contrast.vec [])) = StatType.T then nt else nf) +
         ((cs.take i).filter
           (fun c => decide (classify c = classify (cs.getD i (Contrast.vec []))))).length) := by
  induction cs with
  | nil => intro nt nf i hi; simp at hi
  | cons c rest ih =>
    intro nt nf i hi
    match i with
    | 0 =>
      by_cases hc : classify c = StatType.T
      · simp [frameAssign, hc]
      · simp [frameAssign, hc, classify_F_of_ne_T hc]
    | k + 1 =>
      have hk : k < rest.length := by simpa using hi
      by_cases hc : classify c = StatType.T
      · have h1 : frameAssign (c :: rest) nt nf
            = (StatType.T, nt) :: frameAssign rest (nt + 1) nf := by
          simp only [frameAssign, if_pos hc]
        rw [h1, List.getD_cons_succ, ih (nt + 1) nf k hk, List.getD_cons_succ,
          List.take_succ_cons, List.filter_cons]
        generalize classify (rest.getD k (Contrast.vec [])) = X
        rcases X with _ | _
        · simp [hc]; omega
        · simp [hc]
      · have h1 : frameAssign (c :: rest) nt nf
            = (StatType.F, nf) :: frameAssign rest nt (nf + 1) := by
          simp only [frameAssign, if_neg hc]
        rw [h1, List.getD_cons_succ, ih nt (nf + 1) k hk, List.getD_cons_succ,
          List.take_succ_cons, List.filter_cons]
        generalize classify (rest.getD k (Contrast.vec [])) = X
        rcases X with _ | _
        · simp [hc, classify_F_of_ne_T hc]
        · simp [hc, classify_F_of_ne_T hc]; omega

/-- C6: frame assignment is order-preserving with separate counters per type:
the i-th contrast is written to the frame equal to the number of same-type
contrasts occurring before it in the list, and the totals nt and nf that size
the T and F output volumes are the counts of T and F contrasts in the whole
list. -/
theorem C6_frame_assignment (cs : List Contrast) (i : ℕ) (hi : i < cs.length) :
    (frameAssign cs 0 0).getD i (StatType.T, 0) =
      (classify (cs.getD i (Contrast.vec [])),
       ((cs.take i).filter
         (fun c => decide (classify c = classify (cs.getD i (Contrast.vec []))))).length) ∧
    countTF cs =
      ((cs.filter (fun c => decide (classify c = StatType.T))).length,
       (cs.filter (fun c => decide (classify c = StatType.F))).length) := by
  constructor
  · have h := frameAssign_getD cs 0 0 i hi
    simpa [ite_self] using h
  · rw [countTF, countTF_foldl]
    simp

/-- C6 witness: the T, F, T, F interleaving of four contrasts receives frames
0, 0, 1, 1 and the totals are two of each. -/
theorem C6_witness :
    (2 < ([Contrast.vec [1], Contrast.mat [[1], [2]], Contrast.vec [2],
        Contrast.mat [[3]]] : List Contrast).length) ∧
    ((frameAssign [Contrast.vec [1], Contrast.mat [[1], [2]], Contrast.vec [2],
        Contrast.mat [[3]]] 0 0).getD 2 (StatType.T, 0) =
      (classify (([Contrast.vec [1], Contrast.mat [[1], [2]], Contrast.vec [2],
        Contrast.mat [[3]]] : List Contrast).getD 2 (Contrast.vec [])),
       ((([Contrast.vec [1], Contrast.mat [[1], [2]], Contrast.vec [2],
        Contrast.mat [[3]]] : List Contrast).take 2).filter
         (fun c => decide (classify c = classify (([Contrast.vec [1],
           Contrast.mat [[1], [2]], Contrast.vec [2],
           Contrast.mat [[3]]] : List Contrast).getD 2 (Contrast.vec []))))).length) ∧
     countTF [Contrast.vec [1], Contrast.mat [[1], [2]], Contrast.vec [2],
        Contrast.mat [[3]]] =
      ((([Contrast.vec [1], Contrast.mat [[1], [2]], Contrast.vec [2],
        Contrast.mat [[3]]] : List Contrast).filter
          (fun c => decide (classify c = StatType.T))).length,
       (([Contrast.vec [1], Contrast.mat [[1], [2]], Contrast.vec [2],
        Contrast.mat [[3]]] : List Contrast).filter
          (fun c => decide (classify c = StatType.F))).length)) :=
  ⟨by decide,
   C6_frame_assignment [Contrast.vec [1], Contrast.mat [[1], [2]],
     Contrast.vec [2], Contrast.mat [[3]]] 2 (by decide)⟩

/-- C7: the residual mean square output divides the residual sum of squares
derived from the product matrices and beta by n - p, and it is not aliased
with the model sigma2 estimate: on a concrete instance with nonzero residual
the two outputs differ (sigma2 divides by n even in the degenerate D = 0 case
where both numerators agree). -/
theorem C7_resms_distinct (YtX : List ℚ) (YtY : ℚ) (XtX : List (List ℚ))
    (beta : List ℚ) (n p : ℕ) :
    resms YtX YtY XtX beta n p
      = ssr3D YtX YtY XtX beta / ((n : ℚ) - (p : ℚ)) ∧
    resms [0] 1 [[1]] [0] 10 2 ≠ sigma2AtDZero [0] 1 [[1]] [0] 10 := by
  refine ⟨rfl, ?_⟩
  norm_num [resms, getesms3D, ssr3D, sigma2AtDZero, dot, matVec]

/-- C8: when the fixed-effect-covariance flag is absent it defaults to
enabled; when present its boolean value alone decides emission; and the
flattened p-by-p covariance of beta occupies exactly p^2 output frames. -/
theorem C8_covB_flag :
    outputCovB none = true ∧
    (∀ b : Bool, outputCovB (some b) = b) ∧
    (∀ (p : ℕ) (f : ℕ → ℕ → ℚ),
      ((List.range p).map (fun i => (List.range p).map (f i))).flatten.length
        = dimCovFrames p) := by
  refine ⟨rfl, fun b => rfl, fun p f => ?_⟩
  simp [List.length_flatten, List.map_map, dimCovFrames, Function.comp_def, sq,
    List.map_const', List.sum_replicate, Nat.smul_one_eq_cast]

/-- C10: p is read off as the length of the first contrast vector, and the
downstream reshape of a stored flat product-matrix block of vr rows of true
width pTrue to shape [vr, p, 1] succeeds exactly when pTrue equals that first
contrast length. -/
theorem C10_p_from_first_contrast (cs : List (List ℚ)) (flat : List ℚ)
    (vr pTrue : ℕ) (hlen : flat.length = vr * pTrue) (hv : 0 < vr) :
    (reshape3 flat vr (pFromContrasts cs) 1).isSome ↔
      pTrue = pFromContrasts cs := by
  by_cases h : flat.length = vr * pFromContrasts cs * 1
  · simp only [reshape3, h, if_true, Option.isSome_some, true_iff]
    rw [hlen] at h
    exact Nat.eq_of_mul_eq_mul_left hv (by omega)
  · simp only [reshape3, h, if_false, Option.isSome_none]
    constructor
    · intro hfalse; exact absurd hfalse (by simp)
    · intro heq
      rw [hlen, heq] at h
      exact absurd (by ring) h

/-! ## Claim theorems: unique product matrix resolution -/

theorem le_maxM_of_mem {x : ℕ} : ∀ {l : List ℕ}, x ∈ l → x ≤ maxM l := by
  intro l
  induction l with
  | nil => intro h; cases h
  | cons a t ih =>
    intro h
    rcases List.mem_cons.mp h with rfl | ht
    · exact le_max_left _ _
    · exact le_trans (ih ht) (le_max_right _ _)

theorem getD_le_maxM (l : List ℕ) (j : ℕ) : l.getD j 0 ≤ maxM l := by
  by_cases h : j < l.length
  · rw [List.getD_eq_getElem _ _ h]
    exact le_maxM_of_mem (List.getElem_mem h)
  · rw [List.getD_eq_default _ _ (by omega)]
    exact Nat.zero_le _

theorem fillTo_length (labels : List ℕ) (store : ℕ → List ℚ) (w : ℕ) :
    ∀ M, (fillTo labels store w M).length = labels.length := by
  intro M
  induction M with
  | zero => simp [fillTo]
  | succ m ih => simp [fillTo, List.length_zipWith, ih]

theorem fillTo_getD (labels : List ℕ) (store : ℕ → List ℚ) (w : ℕ) :
    ∀ (M i : ℕ), i < labels.length →
    (fillTo labels store w M).getD i [] =
      if 1 ≤ labels.getD i 0 ∧ labels.getD i 0 ≤ M then
        store (labels.getD i 0 - 1)
      else List.replicate w 0 := by
  intro M
  induction M with
  | zero =>
    intro i hi
    have hcond : ¬ (1 ≤ labels.getD i 0 ∧ labels.getD i 0 ≤ 0) := by omega
    simp only [fillTo, hcond, if_false]
    rw [List.getD_eq_getElem _ _ (by simpa using hi), List.getElem_replicate]
  | succ m ih =>
    intro i hi
    have hlen2 : i < (fillTo labels store w m).length := by
      rw [fillTo_length]; exact hi
    have hlen1 : i < (List.zipWith
        (fun l r => if l = m + 1 then store m else r) labels
        (fillTo labels store w m)).length := by
      rw [List.length_zipWith, fillTo_length]; omega
    rw [show fillTo labels store w (m + 1)
        = List.zipWith (fun l r => if l = m + 1 then store m else r) labels
            (fillTo labels store w m) from rfl,
      List.getD_eq_getElem _ _ hlen1, List.getElem_zipWith,
      ← List.getD_eq_getElem (fillTo labels store w m) [] hlen2, ih i hi,
      ← List.getD_eq_getElem labels 0 hi]
    by_cases h : labels.getD i 0 = m + 1
    · rw [h]
      simp
    · have hiff : (1 ≤ labels.getD i 0 ∧ labels.getD i 0 ≤ m + 1) ↔
          (1 ≤ labels.getD i 0 ∧ labels.getD i 0 ≤ m) := by omega
      simp only [h, if_false, hiff]

/-! ## Claim theorems: double-argsort rank matching -/

theorem sortBy_of_pairwise (lt : ℕ → ℕ → Bool) :
    ∀ l : List ℕ, List.Pairwise (fun x y => lt x y = true) l → sortBy lt l = l := by
  intro l
  induction l with
  | nil => intro h; rfl
  | cons a t ih =>
    intro h
    rw [sortBy, ih h.of_cons]
    cases t with
    | nil => rfl
    | cons b t2 =>
      have hab : lt a b = true := (List.pairwise_cons.mp h).1 b (by simp)
      simp [insertBy, hab]

theorem argsort_of_pairwise {xs : List ℕ} (h : List.Pairwise (· < ·) xs) :
    argsort xs = List.range xs.length := by
  apply sortBy_of_pairwise
  rw [List.pairwise_iff_getElem]
  intro i j hi hj hij
  have hi2 : i < xs.length := by simpa using hi
  have hj2 : j < xs.length := by simpa using hj
  simp only [List.getElem_range]
  rw [keyLt, decide_eq_true_eq]
  left
  rw [List.getD_eq_getElem _ _ hi2, List.getD_eq_getElem _ _ hj2]
  exact List.pairwise_iff_getElem.mp h i j hi2 hj2 hij

theorem argsort_argsort_of_pairwise {xs : List ℕ} (h : List.Pairwise (· < ·) xs) :
    argsort (argsort xs) = List.range xs.length := by
  rw [argsort_of_pairwise h, argsort_of_pairwise (List.pairwise_lt_range _),
    List.length_range]

theorem npSort_of_pairwise {xs : List ℕ} (h : List.Pairwise (· < ·) xs) :
    npSort xs = xs := by
  apply sortBy_of_pairwise
  exact h.imp (fun hab => decide_eq_true hab)

theorem whereIn1d_pairwise (A R : List ℕ) :
    List.Pairwise (· < ·) (whereIn1d A R) :=
  (List.pairwise_lt_range A.length).filter _

theorem map_getD_filter_range (q : ℕ → Bool) :
    ∀ A : List ℕ,
      ((List.range A.length).filter (fun j => q (A.getD j 0))).map
          (fun j => A.getD j 0)
        = A.filter q := by
  intro A
  induction A with
  | nil => simp
  | cons a t ih =>
    rw [List.length_cons, List.range_succ_eq_map, List.filter_cons,
      List.filter_map]
    have hm : ((List.range t.length).filter
          ((fun j => q ((a :: t).getD j 0)) ∘ Nat.succ)).map
          ((fun j => (a :: t).getD j 0) ∘ Nat.succ)
        = ((List.range t.length).filter (fun j => q (t.getD j 0))).map
          (fun j => t.getD j 0) := rfl
    by_cases hqa : q a = true
    · rw [if_pos (show (fun j => q ((a :: t).getD j 0)) 0 = true from hqa),
        List.map_cons, List.map_map, hm, ih, List.filter_cons, if_pos hqa]
      rfl
    · rw [if_neg (show ¬ ((fun j => q ((a :: t).getD j 0)) 0 = true) from hqa),
        List.map_map, hm, ih, List.filter_cons, if_neg hqa]

theorem filter_of_sorted_subset {A R : List ℕ} (hA : List.Pairwise (· < ·) A)
    (hR : List.Pairwise (· < ·) R) (hsub : ∀ x ∈ R, x ∈ A) :
    A.filter (fun a => decide (a ∈ R)) = R := by
  have ndA : A.Nodup := hA.nodup
  have ndR : R.Nodup := hR.nodup
  have ndF : (A.filter (fun a => decide (a ∈ R))).Nodup := ndA.filter _
  have hmem : ∀ x, x ∈ A.filter (fun a => decide (a ∈ R)) ↔ x ∈ R := by
    intro x
    rw [List.mem_filter, decide_eq_true_eq]
    constructor
    · rintro ⟨_, hx⟩; exact hx
    · intro hx; exact ⟨hsub x hx, hx⟩
  have hperm := (List.perm_ext_iff_of_nodup ndF ndR).mpr hmem
  exact List.eq_of_perm_of_sorted hperm
    ((hA.filter _).imp le_of_lt) (hR.imp le_of_lt)

theorem whereIn1d_map {A R : List ℕ} (hA : List.Pairwise (· < ·) A)
    (hR : List.Pairwise (· < ·) R) (hsub : ∀ x ∈ R, x ∈ A) :
    (whereIn1d A R).map (fun j => A.getD j 0) = R := by
  rw [whereIn1d, map_getD_filter_range (fun x => decide (x ∈ R)) A]
  exact filter_of_sorted_subset hA hR hsub

theorem fancyIndex_range (xs : List ℕ) :
    fancyIndex xs (List.range xs.length) = xs := by
  apply List.ext_getElem
  · simp [fancyIndex]
  · intro i h1 h2
    simp [fancyIndex, List.getElem?_eq_getElem h2]

theorem rankMatch_correct {A R : List ℕ} (hA : List.Pairwise (· < ·) A)
    (hR : List.Pairwise (· < ·) R) (hsub : ∀ x ∈ R, x ∈ A) :
    (rankMatch A R).map (fun j => A.getD j 0) = R := by
  have hw := whereIn1d_map hA hR hsub
  have hlen := congrArg List.length hw
  rw [List.length_map] at hlen
  rw [rankMatch, argsort_argsort_of_pairwise hR,
    npSort_of_pairwise (whereIn1d_pairwise A R), ← hlen, fancyIndex_range, hw]

/-- C5: the double-argsort rank matching is correct for the ring subset and
the inner subset of any group: whenever the analysis-mask index list is
strictly increasing and contains every ring (inner) index, reading amInds at
the rank-matched positions reproduces the sorted ring (inner) index list
entry by entry, i.e. amInds[R_inds_am[i]] = R_inds[i] for every rank i. -/
theorem C5_rank_matching (v n : ℕ) (Mask nsv : ℕ → ℕ) (group amInds : List ℕ)
    (hA : List.Pairwise (· < ·) amInds)
    (hr : ∀ x ∈ ringInds v Mask nsv group n, x ∈ amInds)
    (hi : ∀ x ∈ innerInds v Mask nsv group n, x ∈ amInds) :
    (rankMatch amInds (ringInds v Mask nsv group n)).map
        (fun j => amInds.getD j 0) = ringInds v Mask nsv group n ∧
    (rankMatch amInds (innerInds v Mask nsv group n)).map
        (fun j => amInds.getD j 0) = innerInds v Mask nsv group n :=
  ⟨rankMatch_correct hA ((List.pairwise_lt_range v).filter _) hr,
   rankMatch_correct hA ((List.pairwise_lt_range v).filter _) hi⟩

/-- C5 witness: with eight voxels, analysis mask indices 0, 2, 5, 7, a group
mask selecting voxels 2, 5, 7 and full count n = 3 reached only at voxel 5,
the ring is 2, 7 and the inner is 5, and both rank matchings check out. -/
theorem C5_witness :
    List.Pairwise (· < ·) [0, 2, 5, 7] ∧
    (∀ x ∈ ringInds 8 (fun i => if i = 2 ∨ i = 5 ∨ i = 7 then 1 else 0)
        (fun i => if i = 5 then 3 else 2) [2, 5, 7] 3, x ∈ [0, 2, 5, 7]) ∧
    (∀ x ∈ innerInds 8 (fun i => if i = 2 ∨ i = 5 ∨ i = 7 then 1 else 0)
        (fun i => if i = 5 then 3 else 2) [2, 5, 7] 3, x ∈ [0, 2, 5, 7]) ∧
    ((rankMatch [0, 2, 5, 7] (ringInds 8
          (fun i => if i = 2 ∨ i = 5 ∨ i = 7 then 1 else 0)
          (fun i => if i = 5 then 3 else 2) [2, 5, 7] 3)).map
        (fun j => [0, 2, 5, 7].getD j 0) = ringInds 8
          (fun i => if i = 2 ∨ i = 5 ∨ i = 7 then 1 else 0)
          (fun i => if i = 5 then 3 else 2) [2, 5, 7] 3 ∧
     (rankMatch [0, 2, 5, 7] (innerInds 8
          (fun i => if i = 2 ∨ i = 5 ∨ i = 7 then 1 else 0)
          (fun i => if i = 5 then 3 else 2) [2, 5, 7] 3)).map
        (fun j => [0, 2, 5, 7].getD j 0) = innerInds 8
          (fun i => if i = 2 ∨ i = 5 ∨ i = 7 then 1 else 0)
          (fun i => if i = 5 then 3 else 2) [2, 5, 7] 3) :=
  ⟨by decide, by decide, by decide,
   C5_rank_matching 8 3 (fun i => if i = 2 ∨ i = 5 ∨ i = 7 then 1 else 0)
     (fun i => if i = 5 then 3 else 2) [2, 5, 7] [0, 2, 5, 7]
     (by decide) (by decide) (by decide)⟩

/-- C4: resolving with the spatially varying flag set returns one row per
requested voxel: a voxel whose uniqueness-mask label is m in 1..maxM receives
exactly the m-th unique stored row, and a voxel labeled 0 receives the
all-zero row; consequently every resolved row paired with a label m + 1
equals the stored row for that label, so grouping the resolved rows by label
reproduces the unique-store rows exactly. -/
theorem C4_resolver_sv (mask : List ℕ) (vinds : List ℕ) (store : ℕ → List ℚ)
    (w : ℕ) :
    readUniqueAtB_sv mask vinds store w =
      vinds.map (fun j => if mask.getD j 0 = 0 then List.replicate w 0
        else store (mask.getD j 0 - 1)) ∧
    (∀ m : ℕ, ∀ pr ∈ (maskAt mask vinds).zip (readUniqueAtB_sv mask vinds store w),
      pr.1 = m + 1 → pr.2 = store m) := by
  have hlab : (maskAt mask vinds).length = vinds.length := by
    simp [maskAt]
  have hlen : (readUniqueAtB_sv mask vinds store w).length = vinds.length := by
    rw [readUniqueAtB_sv, fillTo_length, hlab]
  have hmain : readUniqueAtB_sv mask vinds store w =
      vinds.map (fun j => if mask.getD j 0 = 0 then List.replicate w 0
        else store (mask.getD j 0 - 1)) := by
    apply List.ext_getElem
    · rw [hlen, List.length_map]
    · intro i h1 h2
      have hiv : i < vinds.length := by rw [hlen] at h1; exact h1
      have hilab : i < (maskAt mask vinds).length := by rw [hlab]; exact hiv
      have hgetlab : (maskAt mask vinds).getD i 0 = mask.getD vinds[i] 0 := by
        rw [List.getD_eq_getElem _ _ hilab]
        simp [maskAt]
      rw [List.getElem_map,
        ← List.getD_eq_getElem (readUniqueAtB_sv mask vinds store w) [] h1]
      rw [show readUniqueAtB_sv mask vinds store w
          = fillTo (maskAt mask vinds) store w (maxM mask) from rfl,
        fillTo_getD _ _ _ _ i hilab, hgetlab]
      have hle : mask.getD vinds[i] 0 ≤ maxM mask := getD_le_maxM mask _
      by_cases hz : mask.getD vinds[i] 0 = 0
      · have hno : ¬ (1 ≤ mask.getD vinds[i] 0 ∧
            mask.getD vinds[i] 0 ≤ maxM mask) := by omega
        rw [if_neg hno, if_pos hz]
      · have hyes : 1 ≤ mask.getD vinds[i] 0 ∧
            mask.getD vinds[i] 0 ≤ maxM mask := by omega
        rw [if_pos hyes, if_neg hz]
  refine ⟨hmain, ?_⟩
  intro m pr hpr hm1
  rcases List.mem_iff_getElem.mp hpr with ⟨i, hilen, hieq⟩
  have hi1 : i < (maskAt mask vinds).length := by
    rw [List.length_zip] at hilen; omega
  have hi2 : i < (readUniqueAtB_sv mask vinds store w).length := by
    rw [List.length_zip] at hilen; omega
  have hiv : i < vinds.length := by rw [hlen] at hi2; exact hi2
  rw [List.getElem_zip] at hieq
  subst hieq
  simp only at hm1 ⊢
  have hl : (maskAt mask vinds)[i] = mask.getD vinds[i] 0 := by
    simp [maskAt]
  rw [hl] at hm1
  have hr : (readUniqueAtB_sv mask vinds store w)[i]
      = if mask.getD vinds[i] 0 = 0 then List.replicate w 0
        else store (mask.getD vinds[i] 0 - 1) := by
    rw [List.getElem_of_eq hmain hi2, List.getElem_map]
  rw [hr, hm1]
  simp

/-- C4 witness: a concrete mask with two unique labels over four voxels,
requesting voxels 1, 2, 3, 0 in that order: labels 2, 1, 2, 0 resolve to the
stored rows [11], [10], [11] and the zero row, and the pair with label 2 in
the zipped grouping carries exactly the second stored row. -/
theorem C4_witness :
    readUniqueAtB_sv [0, 2, 1, 2] [1, 2, 3, 0] (fun m => [(m : ℚ) + 10]) 1
        = [[11], [10], [11], [0]] ∧
    (((2 : ℕ), [(11 : ℚ)]) ∈ (maskAt [0, 2, 1, 2] [1, 2, 3, 0]).zip
        (readUniqueAtB_sv [0, 2, 1, 2] [1, 2, 3, 0] (fun m => [(m : ℚ) + 10]) 1) ∧
      ((2 : ℕ), [(11 : ℚ)]).1 = 1 + 1 ∧
      ((2 : ℕ), [(11 : ℚ)]).2 = [(11 : ℚ)]) := by
  have hmap := (C4_resolver_sv [0, 2, 1, 2] [1, 2, 3, 0]
    (fun m => [(m : ℚ) + 10]) 1).1
  have heval : readUniqueAtB_sv [0, 2, 1, 2] [1, 2, 3, 0]
      (fun m => [(m : ℚ) + 10]) 1 = [[11], [10], [11], [0]] := by
    rw [hmap]; norm_num
  have hmem : ((2 : ℕ), [(11 : ℚ)]) ∈ (maskAt [0, 2, 1, 2] [1, 2, 3, 0]).zip
      (readUniqueAtB_sv [0, 2, 1, 2] [1, 2, 3, 0] (fun m => [(m : ℚ) + 10]) 1) := by
    rw [heval]
    decide
  have h2 := (C4_resolver_sv [0, 2, 1, 2] [1, 2, 3, 0]
    (fun m => [(m : ℚ) + 10]) 1).2 1 ((2 : ℕ), [(11 : ℚ)]) hmem rfl
  exact ⟨heval, hmem, rfl, h2.trans (by norm_num)⟩

theorem pickTo_eq (label : ℕ) (store : ℕ → List ℚ) :
    ∀ M, 1 ≤ label → label ≤ M → pickTo label store M = some (store (label - 1)) := by
  intro M
  induction M with
  | zero => intro h1 h2; omega
  | succ m ih =>
    intro h1 h2
    by_cases h : label = m + 1
    · simp [pickTo, h]
    · have hm : label ≤ m := by omega
      simp [pickTo, h, ih h1 hm]

/-- C9: with the spatially varying flag cleared, the resolver result is
determined solely by the uniqueness-mask label of the first requested voxel:
the list of requested voxels enters only through its head, no other voxel is
inspected and no consistency check happens, and when the first label is
m >= 1 the result is exactly the m-th unique stored row. -/
theorem C9_resolver_nonsv (mask : List ℕ) (vinds : List ℕ)
    (store : ℕ → List ℚ) :
    readUniqueAtB_nonsv mask vinds store
        = readUniqueAtB_nonsv mask [vinds.headD 0] store ∧
    (1 ≤ mask.getD (vinds.headD 0) 0 →
      readUniqueAtB_nonsv mask vinds store
        = some (store (mask.getD (vinds.headD 0) 0 - 1))) := by
  constructor
  · rfl
  · intro h1
    exact pickTo_eq _ store (maxM mask) h1 (getD_le_maxM mask _)

/-- C9 witness: with first requested voxel 1 carrying label 2, the resolver
returns the second stored row however many further voxels are requested. -/
theorem C9_witness :
    (readUniqueAtB_nonsv [0, 2, 1, 2] [1, 2, 3] (fun m => [(m : ℚ) + 10])
        = readUniqueAtB_nonsv [0, 2, 1, 2] [([1, 2, 3].headD 0)]
            (fun m => [(m : ℚ) + 10])) ∧
    (1 ≤ [0, 2, 1, 2].getD ([1, 2, 3].headD 0) 0 ∧
      readUniqueAtB_nonsv [0, 2, 1, 2] [1, 2, 3] (fun m => [(m : ℚ) + 10])
        = some [(11 : ℚ)]) := by
  refine ⟨(C9_resolver_nonsv [0, 2, 1, 2] [1, 2, 3] (fun m => [(m : ℚ) + 10])).1,
    by decide, ?_⟩
  have h := (C9_resolver_nonsv [0, 2, 1, 2] [1, 2, 3]
    (fun m => [(m : ℚ) + 10])).2 (by decide)
  rw [h]
  norm_num

/-- C10 witness: two rows of true width two reshape to [2, p, 1] exactly when
the first contrast has length two. -/
theorem C10_witness :
    (List.replicate 4 (0 : ℚ)).length = 2 * 2 ∧ 0 < 2 ∧
    ((reshape3 (List.replicate 4 (0 : ℚ)) 2 (pFromContrasts [[1, 0]]) 1).isSome ↔
      2 = pFromContrasts [[1, 0]]) :=
  ⟨by decide, by decide,
   C10_p_from_first_contrast [[1, 0]] (List.replicate 4 (0 : ℚ)) 2 2
     (by decide) (by decide)⟩

end BLMM
